import Mathlib

/-!
Verification of the pscale PostgreSQL batch-insert benchmark (src/main.go).

Shallow embedding conventions:
* Go `float64` values are modelled as real numbers (`ℝ`); IEEE rounding and
  NaN are outside the model, and where a claim turns on them (0.0/0.0) we
  exhibit the division structurally.
* The database client (pgx) is external to the repository; its transaction
  semantics are modelled from the spec: a transaction's queued inserts become
  visible atomically on a successful commit, and an aborted (rolled-back or
  failed-commit) transaction contributes no rows (spec sections 4.1 and 7:
  "partially-inserted rows from an aborted transaction must not be counted").
* Fallibility of begin / batch-send / commit / truncate is supplied by an
  oracle of booleans indexed by transaction number.
* Wall-clock timing is not modelled; the sampler instead consumes the
  sequence of measured throughput values directly (`f : ℕ → ℝ` gives the
  throughput of the i-th sample), which is exactly the abstraction the
  claims quantify over ("for every sequence of throughput samples").
-/

namespace PScale

/-! ## Statistics Engine (main.go `calculateMean`, `calculateStdDev`) -/

/-- `calculateMean` from main.go: `sum := 0.0; for _, v := range values { sum += v };
return sum / float64(len(values))`. -/
noncomputable def calculateMean (values : List ℝ) : ℝ :=
  (values.foldl (fun sum v => sum + v) 0) / (values.length : ℝ)

/-- `calculateStdDev` from main.go: accumulates `diff*diff` for `diff := v - mean`,
divides by `float64(len(values))` (population variance) and takes `math.Sqrt`. -/
noncomputable def calculateStdDev (values : List ℝ) (mean : ℝ) : ℝ :=
  Real.sqrt ((values.foldl (fun sumSquares v => sumSquares + (v - mean) * (v - mean)) 0) /
    (values.length : ℝ))

/-! ## Steady-State Sampler constants (main.go `measureSteadyState`) -/

/-- `minSamples = 5` in `measureSteadyState`. -/
def minSamples : ℕ := 5

/-- `maxSamples = 20` in `measureSteadyState`. -/
def maxSamples : ℕ := 20

/-- `targetCV = 0.05` in `measureSteadyState`. -/
noncomputable def targetCV : ℝ := 0.05

/-- `cv := stdDev / mean` as computed inline in `measureSteadyState`. -/
noncomputable def cvOf (xs : List ℝ) : ℝ :=
  calculateStdDev xs (calculateMean xs) / calculateMean xs

/-- Trial-level datastore events, at the granularity of the spec's reset
invariant: one event per warmup transaction, per measured sample insertion,
and per `clearTable` call. -/
inductive TrialEvent where
  | clearTable : TrialEvent
  | sampleInsert : TrialEvent
  | warmupInsert : TrialEvent
deriving DecidableEq

/-- Terminal states of the sampler: `Converged` (CV reached the target) or
`MaxReached` (the `len(durations) < maxSamples` loop guard failed). -/
inductive SampleStatus where
  | converged : SampleStatus
  | maxReached : SampleStatus
deriving DecidableEq

open Classical in
/-- The loop of `measureSteadyState`, one recursive step per iteration.
`f i` is the throughput measured for the i-th sample (the code's
`rowsPerSec := float64(rowsToInsert) / duration.Seconds()`); `durations` is
the accumulated series. Each iteration clears the table, measures one sample,
appends it, and — once `minSamples` samples exist — converges iff
`cv <= targetCV` over the whole series. `fuel` counts the remaining
iterations allowed by the `len(durations) < maxSamples` guard. Returns the
emitted event trace, the final series, and the terminal state. -/
noncomputable def samplerAux (f : ℕ → ℝ) :
    ℕ → List ℝ → List TrialEvent × List ℝ × SampleStatus
  | 0, durations => ([], durations, SampleStatus.maxReached)
  | fuel + 1, durations =>
    let durations' := durations ++ [f durations.length]
    if minSamples ≤ durations'.length ∧ cvOf durations' ≤ targetCV then
      ([TrialEvent.clearTable, TrialEvent.sampleInsert], durations', SampleStatus.converged)
    else
      let r := samplerAux f fuel durations'
      (TrialEvent.clearTable :: TrialEvent.sampleInsert :: r.1, r.2)

/-- `measureSteadyState` from main.go, with measurement abstracted to the
throughput sequence `f`: the loop starts from an empty series and may run at
most `maxSamples` iterations. -/
noncomputable def measureSteadyState (f : ℕ → ℝ) :
    List TrialEvent × List ℝ × SampleStatus :=
  samplerAux f maxSamples []

/-- The statistics-bearing fields of the `Result` struct built by
`measureSteadyState` (batch size and the derived duration omitted). -/
structure SampleResult where
  samples : ℕ
  rowsPerSec : ℝ
  stdDev : ℝ
  status : SampleStatus

/-- Both return points of `measureSteadyState` fill the `Result` with
`mean`/`stdDev` over the entire `durations` series and `samples := len(durations)`. -/
noncomputable def measureResult (f : ℕ → ℝ) : SampleResult :=
  let r := measureSteadyState f
  { samples := r.2.1.length
    rowsPerSec := calculateMean r.2.1
    stdDev := calculateStdDev r.2.1 (calculateMean r.2.1)
    status := r.2.2 }

/-- The first `n` values of the measured-throughput sequence `f`. -/
noncomputable def prefixList (f : ℕ → ℝ) (n : ℕ) : List ℝ :=
  (List.range n).map f

/-- The sampler's stopping condition after the k-th sample: the
`len(durations) >= minSamples` guard and the `cv <= targetCV` test. -/
noncomputable def stopAt (f : ℕ → ℝ) (k : ℕ) : Prop :=
  minSamples ≤ k ∧ cvOf (prefixList f k) ≤ targetCV

/-! ## Trial-level event traces (one batch-size trial = warmup, then sampling) -/

/-- Success-path event summary of `runWarmup`: the `for i := 0; i < 2` loop
performs one insert transaction per iteration, and `clearTable` is called
once, after the loop. -/
def runWarmupEvents : List TrialEvent :=
  [TrialEvent.warmupInsert, TrialEvent.warmupInsert, TrialEvent.clearTable]

/-- One batch-size trial as driven by `main`: `runWarmup`, then
`measureSteadyState`. -/
noncomputable def trialEvents (f : ℕ → ℝ) : List TrialEvent :=
  runWarmupEvents ++ (measureSteadyState f).1

/-- Events that add rows to the table. -/
def isRowInsert : TrialEvent → Bool
  | TrialEvent.sampleInsert => true
  | TrialEvent.warmupInsert => true
  | TrialEvent.clearTable => false

/-- Measured-sample insertions only. -/
def isSampleInsert : TrialEvent → Bool
  | TrialEvent.sampleInsert => true
  | _ => false

/-- `prev` is the event immediately before the current head. Checks that
every event selected by `sel` is immediately preceded by a `clearTable`. -/
def clearPrecededAux (sel : TrialEvent → Bool) :
    Option TrialEvent → List TrialEvent → Bool
  | _, [] => true
  | prev, e :: rest =>
    ((!sel e) || decide (prev = some TrialEvent.clearTable)) &&
      clearPrecededAux sel (some e) rest

/-- Claim C4 as stated: every row-inserting event (warmup cycle or measured
sample) in the trace is immediately preceded by a table clear. -/
def insertsClearPreceded (tr : List TrialEvent) : Bool :=
  clearPrecededAux isRowInsert none tr

/-- The weaker property the code satisfies: every measured sample is
immediately preceded by a table clear. -/
def samplesClearPreceded (tr : List TrialEvent) : Bool :=
  clearPrecededAux isSampleInsert none tr

/-! ## Batched Insert Executor chunking (main.go `insertWithBatch`) -/

/-- The chunk-boundary loop of `insertWithBatch`:
`for i := 0; i < len(data); i += batchSize { end := min(i+batchSize, len(data));
chunk := data[i:end] }`. One fuel unit per loop iteration; for `b ≥ 1`,
`data.length` units of fuel always suffice (each iteration advances `i` by at
least 1), so `chunks` below is the loop's full output. For `b = 0` the source
loop never advances `i` and does not terminate (claim C9, settled via
`loopNext`). -/
def chunksAux {α : Type} (b : ℕ) (data : List α) : ℕ → ℕ → List (List α)
  | 0, _ => []
  | fuel + 1, i =>
    if i < data.length then
      ((data.drop i).take b) :: chunksAux b data fuel (i + b)
    else []

/-- The transaction chunks `insertWithBatch` processes, in order. -/
def chunks {α : Type} (b : ℕ) (data : List α) : List (List α) :=
  chunksAux b data data.length 0

/-- One update of the loop index of `insertWithBatch`: while `i < len(data)`
the loop body runs and then `i += batchSize`; otherwise the loop has exited
and `i` is unchanged. -/
def loopNext (len b i : ℕ) : ℕ :=
  if i < len then i + b else i

/-! ## Effectful executor model (transactions against an oracle) -/

/-- Datastore operations performed by `insertWithBatch` and `runWarmup`,
indexed by transaction number; `sendBatch k n` queues and sends `n` insert
statements in transaction `k`. -/
inductive TxOp where
  | beginTx : ℕ → TxOp
  | sendBatch : ℕ → ℕ → TxOp
  | rollback : ℕ → TxOp
  | commit : ℕ → TxOp
  | clearT : TxOp
deriving DecidableEq

/-- The transaction number an operation belongs to (`clearT` is outside any
transaction). -/
def opIndex : TxOp → ℕ
  | TxOp.beginTx k => k
  | TxOp.sendBatch k _ => k
  | TxOp.rollback k => k
  | TxOp.commit k => k
  | TxOp.clearT => 0

/-- Failure oracle for the external database client: whether the k-th
transaction's `Begin`, `SendBatch`/`Close`, or `Commit` fails, and whether
`TRUNCATE` fails. -/
structure DBOracle where
  beginFails : ℕ → Bool
  batchFails : ℕ → Bool
  commitFails : ℕ → Bool
  clearFails : Bool

/-- The per-chunk transaction loop of `insertWithBatch`, over the precomputed
chunk list, starting at transaction number `k` with the given table contents.
Mirrors the source paths: `pool.Begin` error returns immediately; a
`br.Close()` error rolls back and returns; a `tx.Commit` error returns (the
failed commit aborts the transaction, so — per the spec's atomicity — its rows
are not applied); on success the chunk's rows become visible and the loop
continues. Returns the operation trace, the final table, and success. -/
def execChunks {α : Type} (o : DBOracle) :
    List (List α) → ℕ → List α → List TxOp × List α × Bool
  | [], _, table => ([], table, true)
  | c :: rest, k, table =>
    if o.beginFails k then ([TxOp.beginTx k], table, false)
    else if o.batchFails k then
      ([TxOp.beginTx k, TxOp.sendBatch k c.length, TxOp.rollback k], table, false)
    else if o.commitFails k then
      ([TxOp.beginTx k, TxOp.sendBatch k c.length, TxOp.commit k], table, false)
    else
      let r := execChunks o rest (k + 1) (table ++ c)
      (TxOp.beginTx k :: TxOp.sendBatch k c.length :: TxOp.commit k :: r.1, r.2)

/-- `insertWithBatch` from main.go (timing dropped, database effects through
the oracle): process `data` in transactions of `b` rows each. -/
def insertWithBatch {α : Type} (o : DBOracle) (data : List α) (b : ℕ)
    (table : List α) : List TxOp × List α × Bool :=
  execChunks o (chunks b data) 0 table

/-- One iteration of `runWarmup`'s loop: a single transaction inserting the
first `w` rows of `data` (`w = warmupSize`), with the same error paths as
`insertWithBatch`'s chunk transaction. -/
def warmupCycle {α : Type} (o : DBOracle) (k : ℕ) (table data : List α)
    (w : ℕ) : List TxOp × List α × Bool :=
  if o.beginFails k then ([TxOp.beginTx k], table, false)
  else if o.batchFails k then
    ([TxOp.beginTx k, TxOp.sendBatch k w, TxOp.rollback k], table, false)
  else if o.commitFails k then
    ([TxOp.beginTx k, TxOp.sendBatch k w, TxOp.commit k], table, false)
  else ([TxOp.beginTx k, TxOp.sendBatch k w, TxOp.commit k], table ++ data.take w, true)

/-- `runWarmup` from main.go: two warmup transactions of
`warmupSize = min(batchSize, len(data))` rows each (any failure propagates
immediately), then `clearTable`; a failed `TRUNCATE` leaves the table as is
and propagates the error. -/
def runWarmup {α : Type} (o : DBOracle) (table data : List α) (b : ℕ) :
    List TxOp × List α × Bool :=
  let w := min b data.length
  let r0 := warmupCycle o 0 table data w
  if r0.2.2 then
    let r1 := warmupCycle o 1 r0.2.1 data w
    if r1.2.2 then
      if o.clearFails then (r0.1 ++ r1.1, r1.2.1, false)
      else (r0.1 ++ r1.1 ++ [TxOp.clearT], [], true)
    else (r0.1 ++ r1.1, r1.2)
  else r0

/-- Oracle on which every database operation succeeds. -/
def oracleOk : DBOracle :=
  { beginFails := fun _ => false
    batchFails := fun _ => false
    commitFails := fun _ => false
    clearFails := false }

/-- Oracle whose second transaction (number 1) fails at batch send. -/
def oracleBatchFail1 : DBOracle :=
  { beginFails := fun _ => false
    batchFails := fun k => decide (k = 1)
    commitFails := fun _ => false
    clearFails := false }

/-! ## Lemmas: Statistics Engine -/

lemma foldl_add_eq (l : List ℝ) : ∀ a : ℝ, l.foldl (fun s v => s + v) a = a + l.sum := by
  induction l with
  | nil => intro a; simp
  | cons x xs ih =>
    intro a
    simp only [List.foldl_cons, List.sum_cons, ih (a + x)]
    ring

lemma foldl_addsq_eq (m : ℝ) (l : List ℝ) :
    ∀ a : ℝ, l.foldl (fun s v => s + (v - m) * (v - m)) a
      = a + (l.map (fun v => (v - m) * (v - m))).sum := by
  induction l with
  | nil => intro a; simp
  | cons x xs ih =>
    intro a
    simp only [List.foldl_cons, List.map_cons, List.sum_cons, ih (a + (x - m) * (x - m))]
    ring

lemma calculateMean_eq_sum_div (xs : List ℝ) :
    calculateMean xs = xs.sum / (xs.length : ℝ) := by
  unfold calculateMean
  rw [foldl_add_eq, zero_add]

lemma calculateStdDev_eq_sqrt (xs : List ℝ) (m : ℝ) :
    calculateStdDev xs m
      = Real.sqrt ((xs.map (fun v => (v - m) * (v - m))).sum / (xs.length : ℝ)) := by
  unfold calculateStdDev
  rw [foldl_addsq_eq, zero_add]

lemma sum_of_all_eq (c : ℝ) : ∀ (xs : List ℝ), (∀ x ∈ xs, x = c) →
    xs.sum = (xs.length : ℝ) * c := by
  intro xs
  induction xs with
  | nil => intro _; simp
  | cons y ys ih =>
    intro h
    have hy : y = c := h y (by simp)
    have hys : ys.sum = (ys.length : ℝ) * c := ih (fun x hx => h x (by simp [hx]))
    simp only [List.sum_cons, List.length_cons, hy, hys]
    push_cast
    ring

lemma length_cast_ne_zero (xs : List ℝ) (hne : xs ≠ []) : (xs.length : ℝ) ≠ 0 :=
  Nat.cast_ne_zero.mpr (Nat.pos_iff_ne_zero.mp (List.length_pos.mpr hne))

lemma calculateMean_of_all_eq (xs : List ℝ) (c : ℝ) (hne : xs ≠ [])
    (h : ∀ x ∈ xs, x = c) : calculateMean xs = c := by
  rw [calculateMean_eq_sum_div, sum_of_all_eq c xs h, mul_comm,
    mul_div_assoc, div_self (length_cast_ne_zero xs hne), mul_one]

lemma sum_nonneg_eq_zero_iff (l : List ℝ) (h : ∀ x ∈ l, 0 ≤ x) :
    l.sum = 0 ↔ ∀ x ∈ l, x = 0 := by
  induction l with
  | nil => simp
  | cons y ys ih =>
    have hy : 0 ≤ y := h y (by simp)
    have hys : 0 ≤ ys.sum := List.sum_nonneg (fun x hx => h x (by simp [hx]))
    simp only [List.sum_cons, List.mem_cons]
    constructor
    · intro hz
      have hz2 : y = 0 ∧ ys.sum = 0 := by constructor <;> nlinarith
      have := (ih (fun x hx => h x (by simp [hx]))).mp hz2.2
      intro x hx
      rcases hx with hx | hx
      · simpa [hx] using hz2.1
      · exact this x hx
    · intro hall
      have h1 : y = 0 := hall y (Or.inl rfl)
      have h2 : ys.sum = 0 :=
        (ih (fun x hx => h x (by simp [hx]))).mpr (fun x hx => hall x (Or.inr hx))
      rw [h1, h2, add_zero]

lemma calculateStdDev_nonneg (xs : List ℝ) (m : ℝ) : 0 ≤ calculateStdDev xs m :=
  Real.sqrt_nonneg _

lemma calculateStdDev_eq_zero_iff (xs : List ℝ) (m : ℝ) (hne : xs ≠ []) :
    calculateStdDev xs m = 0 ↔ ∀ x ∈ xs, x = m := by
  rw [calculateStdDev_eq_sqrt]
  have hS : 0 ≤ (xs.map (fun v => (v - m) * (v - m))).sum := by
    apply List.sum_nonneg
    intro y hy
    obtain ⟨v, _, rfl⟩ := List.mem_map.mp hy
    exact mul_self_nonneg _
  have hn : (xs.length : ℝ) ≠ 0 := length_cast_ne_zero xs hne
  have hn' : (0 : ℝ) ≤ (xs.length : ℝ) := Nat.cast_nonneg _
  constructor
  · intro h0
    have hle := Real.sqrt_eq_zero'.mp h0
    have hge : 0 ≤ (xs.map (fun v => (v - m) * (v - m))).sum / (xs.length : ℝ) :=
      div_nonneg hS hn'
    have hdiv : (xs.map (fun v => (v - m) * (v - m))).sum / (xs.length : ℝ) = 0 :=
      le_antisymm hle hge
    have hsum : (xs.map (fun v => (v - m) * (v - m))).sum = 0 := by
      rcases div_eq_zero_iff.mp hdiv with h | h
      · exact h
      · exact absurd h hn
    have hall := (sum_nonneg_eq_zero_iff _ (fun y hy => by
      obtain ⟨v, _, rfl⟩ := List.mem_map.mp hy
      exact mul_self_nonneg _)).mp hsum
    intro x hx
    have := hall ((x - m) * (x - m)) (List.mem_map.mpr ⟨x, hx, rfl⟩)
    have hxm : x - m = 0 := mul_self_eq_zero.mp this
    linarith
  · intro hall
    have hsum : (xs.map (fun v => (v - m) * (v - m))).sum = 0 := by
      apply List.sum_eq_zero
      intro y hy
      obtain ⟨v, hv, rfl⟩ := List.mem_map.mp hy
      rw [hall v hv]
      ring
    rw [hsum, zero_div, Real.sqrt_zero]

/-! ## Claim theorems: Statistics Engine -/

/-- C3: the Statistics Engine computes `mean(xs) = sum(xs)/len(xs)` and
`stdDev(xs, m) = sqrt(sum((x - m)^2)/len(xs))` — the population standard
deviation, dividing by `n` rather than `n - 1` — and for a series of length 1
the standard deviation equals 0. (Both functions are pure Lean functions,
hence deterministic and side-effect free.) -/
theorem statistics_engine_formulas (xs : List ℝ) (m : ℝ) (hne : xs ≠ []) :
    calculateMean xs = xs.sum / (xs.length : ℝ) ∧
    calculateStdDev xs m
      = Real.sqrt ((xs.map (fun x => (x - m) ^ 2)).sum / (xs.length : ℝ)) ∧
    (∀ x : ℝ, calculateStdDev [x] (calculateMean [x]) = 0) := by
  refine ⟨calculateMean_eq_sum_div xs, ?_, ?_⟩
  · rw [calculateStdDev_eq_sqrt]
    have hfun : (fun x : ℝ => (x - m) ^ 2) = fun v : ℝ => (v - m) * (v - m) := by
      funext v
      ring
    rw [hfun]
  · intro x
    have hm : calculateMean [x] = x := by
      rw [calculateMean_eq_sum_div]
      simp
    rw [hm, calculateStdDev_eq_sqrt]
    simp

/-- Witness for C3 at the concrete series `[1, 2]` with `m = 0`. -/
theorem statistics_engine_formulas_witness :
    (([1, 2] : List ℝ) ≠ []) ∧
    (calculateMean [1, 2] = ([1, 2] : List ℝ).sum / (([1, 2] : List ℝ).length : ℝ) ∧
      calculateStdDev [1, 2] 0
        = Real.sqrt ((([1, 2] : List ℝ).map (fun x => (x - 0) ^ 2)).sum /
            (([1, 2] : List ℝ).length : ℝ)) ∧
      (∀ x : ℝ, calculateStdDev [x] (calculateMean [x]) = 0)) :=
  ⟨by simp, statistics_engine_formulas [1, 2] 0 (by simp)⟩

/-- C7: for any non-empty series, the population standard deviation is
nonnegative, and it is zero iff all samples in the series are identical. -/
theorem stdDev_nonneg_zero_iff (xs : List ℝ) (hne : xs ≠ []) :
    0 ≤ calculateStdDev xs (calculateMean xs) ∧
    (calculateStdDev xs (calculateMean xs) = 0 ↔ ∀ x ∈ xs, ∀ y ∈ xs, x = y) := by
  refine ⟨calculateStdDev_nonneg xs (calculateMean xs), ?_⟩
  rw [calculateStdDev_eq_zero_iff xs (calculateMean xs) hne]
  constructor
  · intro h x hx y hy
    rw [h x hx, h y hy]
  · intro hpair
    obtain ⟨c, hc⟩ := List.exists_mem_of_ne_nil xs hne
    have hmc : calculateMean xs = c :=
      calculateMean_of_all_eq xs c hne (fun x hx => hpair x hx c hc)
    intro x hx
    rw [hmc]
    exact hpair x hx c hc

/-- Witness for C7 at the concrete series `[2, 2]`. -/
theorem stdDev_nonneg_zero_iff_witness :
    (([2, 2] : List ℝ) ≠ []) ∧
    (0 ≤ calculateStdDev [2, 2] (calculateMean [2, 2]) ∧
      (calculateStdDev [2, 2] (calculateMean [2, 2]) = 0 ↔
        ∀ x ∈ ([2, 2] : List ℝ), ∀ y ∈ ([2, 2] : List ℝ), x = y)) :=
  ⟨by simp, stdDev_nonneg_zero_iff [2, 2] (by simp)⟩

/-- C10: `calculateMean` and `calculateStdDev` divide by the input length
without guarding against the empty sequence. For every non-empty input the
divisor is nonzero, so the result is well-defined; on the empty input the
computation is literally the division `0 / 0` (IEEE evaluates `0.0/0.0` to
NaN; no error is signalled — both functions are total). -/
theorem mean_empty_divides_zero_by_zero :
    (∀ xs : List ℝ, xs ≠ [] → (xs.length : ℝ) ≠ 0) ∧
    calculateMean ([] : List ℝ) = 0 / 0 ∧
    calculateStdDev ([] : List ℝ) 0 = Real.sqrt (0 / 0) := by
  refine ⟨fun xs h => length_cast_ne_zero xs h, ?_, ?_⟩
  · rw [calculateMean_eq_sum_div]
    simp
  · rw [calculateStdDev_eq_sqrt]
    simp

/-- Witness for C10's non-empty part at the concrete series `[1]`. -/
theorem mean_empty_divides_zero_by_zero_witness :
    (([1] : List ℝ) ≠ []) ∧ ((([1] : List ℝ).length : ℝ) ≠ 0) :=
  ⟨by simp, mean_empty_divides_zero_by_zero.1 [1] (by simp)⟩

/-! ## Lemmas: Batched Insert Executor chunking -/

lemma chunksAux_flatten {α : Type} (b : ℕ) (hb : 1 ≤ b) (data : List α) :
    ∀ fuel i, data.length - i ≤ fuel →
      (chunksAux b data fuel i).flatten = data.drop i := by
  intro fuel
  induction fuel with
  | zero =>
    intro i hi
    have hle : data.length ≤ i := by omega
    simp [chunksAux, List.drop_eq_nil_of_le hle]
  | succ fuel ih =>
    intro i hi
    by_cases h : i < data.length
    · have hrw : chunksAux b data (fuel + 1) i
          = ((data.drop i).take b) :: chunksAux b data fuel (i + b) := by
        simp [chunksAux, h]
      rw [hrw, List.flatten_cons, ih (i + b) (by omega)]
      have hdd : data.drop (i + b) = (data.drop i).drop b := by
        rw [List.drop_drop, Nat.add_comm]
      rw [hdd, List.take_append_drop]
    · have hrw : chunksAux b data (fuel + 1) i = [] := by
        simp [chunksAux, h]
      have hle : data.length ≤ i := by omega
      simp [hrw, List.drop_eq_nil_of_le hle]

lemma chunksAux_mem_length {α : Type} (b : ℕ) (hb : 1 ≤ b) (data : List α) :
    ∀ fuel i, ∀ c ∈ chunksAux b data fuel i, 0 < c.length ∧ c.length ≤ b := by
  intro fuel
  induction fuel with
  | zero =>
    intro i c hc
    simp [chunksAux] at hc
  | succ fuel ih =>
    intro i c hc
    by_cases h : i < data.length
    · rw [show chunksAux b data (fuel + 1) i
          = ((data.drop i).take b) :: chunksAux b data fuel (i + b) from by
        simp [chunksAux, h]] at hc
      rcases List.mem_cons.mp hc with hc | hc
      · subst hc
        rw [List.length_take, List.length_drop]
        omega
      · exact ih (i + b) c hc
    · rw [show chunksAux b data (fuel + 1) i = [] from by simp [chunksAux, h]] at hc
      simp at hc

lemma chunksAux_ne_nil_imp {α : Type} (b : ℕ) (data : List α) (fuel i : ℕ) :
    chunksAux b data fuel i ≠ [] → i < data.length := by
  cases fuel with
  | zero => simp [chunksAux]
  | succ fuel =>
    by_cases h : i < data.length
    · intro _
      exact h
    · simp [chunksAux, h]

lemma chunksAux_dropLast_length {α : Type} (b : ℕ) (hb : 1 ≤ b) (data : List α) :
    ∀ fuel i, ∀ c ∈ (chunksAux b data fuel i).dropLast, c.length = b := by
  intro fuel
  induction fuel with
  | zero =>
    intro i c hc
    simp [chunksAux] at hc
  | succ fuel ih =>
    intro i c hc
    by_cases h : i < data.length
    · rw [show chunksAux b data (fuel + 1) i
          = ((data.drop i).take b) :: chunksAux b data fuel (i + b) from by
        simp [chunksAux, h]] at hc
      rcases hrest : chunksAux b data fuel (i + b) with _ | ⟨c₁, rest⟩
      · rw [hrest] at hc
        simp at hc
      · have hne : chunksAux b data fuel (i + b) ≠ [] := by
          rw [hrest]
          simp
        have hlt : i + b < data.length := chunksAux_ne_nil_imp b data fuel (i + b) hne
        rw [hrest, List.dropLast_cons₂] at hc
        rcases List.mem_cons.mp hc with hc | hc
        · subst hc
          rw [List.length_take, List.length_drop]
          omega
        · refine ih (i + b) c ?_
          rw [hrest]
          exact hc
    · rw [show chunksAux b data (fuel + 1) i = [] from by simp [chunksAux, h]] at hc
      simp at hc

lemma execChunks_ok {α : Type} (o : DBOracle) :
    ∀ (cs : List (List α)) (k : ℕ) (table : List α),
      (execChunks o cs k table).2.2 = true →
      (execChunks o cs k table).2.1 = table ++ cs.flatten := by
  intro cs
  induction cs with
  | nil =>
    intro k table _
    simp [execChunks]
  | cons c rest ih =>
    intro k table h
    cases hb0 : o.beginFails k with
    | true => simp [execChunks, hb0] at h
    | false =>
      cases hb1 : o.batchFails k with
      | true => simp [execChunks, hb0, hb1] at h
      | false =>
        cases hb2 : o.commitFails k with
        | true => simp [execChunks, hb0, hb1, hb2] at h
        | false =>
          have hrw : execChunks o (c :: rest) k table
              = (TxOp.beginTx k :: TxOp.sendBatch k c.length :: TxOp.commit k ::
                  (execChunks o rest (k + 1) (table ++ c)).1,
                 (execChunks o rest (k + 1) (table ++ c)).2) := by
            simp [execChunks, hb0, hb1, hb2]
          rw [hrw] at h ⊢
          rw [ih (k + 1) (table ++ c) h]
          simp [List.flatten_cons, List.append_assoc]

/-! ## Claim theorems: Batched Insert Executor -/

/-- C2: for every record sequence and batch size `B ≥ 1`, the executor
partitions the input into contiguous transactions of at most `B` records
each in which only the final transaction may be smaller, inserts exactly
`len(records)` rows on success, and 10 records with `B = 3` produce 4
transactions of sizes 3, 3, 3, 1. -/
theorem insert_executor_partition {α : Type} (data : List α) (b : ℕ) (hb : 1 ≤ b) :
    (chunks b data).flatten = data ∧
    ((chunks b data).map List.length).sum = data.length ∧
    (∀ c ∈ chunks b data, 0 < c.length ∧ c.length ≤ b) ∧
    (∀ c ∈ (chunks b data).dropLast, c.length = b) ∧
    (∀ (o : DBOracle) (table : List α),
      (insertWithBatch o data b table).2.2 = true →
      (insertWithBatch o data b table).2.1 = table ++ data) ∧
    (chunks 3 (List.range 10)).map List.length = [3, 3, 3, 1] := by
  have hjoin : (chunks b data).flatten = data := by
    unfold chunks
    rw [chunksAux_flatten b hb data data.length 0 (by omega), List.drop_zero]
  refine ⟨hjoin, ?_, ?_, ?_, ?_, ?_⟩
  · rw [← List.length_flatten, hjoin]
  · exact fun c hc => chunksAux_mem_length b hb data data.length 0 c hc
  · exact fun c hc => chunksAux_dropLast_length b hb data data.length 0 c hc
  · intro o table hok
    unfold insertWithBatch at hok ⊢
    rw [execChunks_ok o (chunks b data) 0 table hok, hjoin]
  · decide

/-- Witness for C2 at 10 records and `B = 3`. -/
theorem insert_executor_partition_witness :
    (1 ≤ 3) ∧
    ((chunks 3 (List.range 10)).flatten = List.range 10 ∧
      ((chunks 3 (List.range 10)).map List.length).sum = (List.range 10).length ∧
      (∀ c ∈ chunks 3 (List.range 10), 0 < c.length ∧ c.length ≤ 3) ∧
      (∀ c ∈ (chunks 3 (List.range 10)).dropLast, c.length = 3) ∧
      (∀ (o : DBOracle) (table : List ℕ),
        (insertWithBatch o (List.range 10) 3 table).2.2 = true →
        (insertWithBatch o (List.range 10) 3 table).2.1 = table ++ List.range 10) ∧
      (chunks 3 (List.range 10)).map List.length = [3, 3, 3, 1]) :=
  ⟨by norm_num, insert_executor_partition (List.range 10) 3 (by norm_num)⟩

lemma iterate_loopNext_lower (len b : ℕ) (hb : 1 ≤ b) :
    ∀ n, min len (n * b) ≤ Nat.iterate (loopNext len b) n 0 := by
  intro n
  induction n with
  | zero => simp
  | succ n ih =>
    rw [Function.iterate_succ_apply', Nat.succ_mul]
    by_cases h : Nat.iterate (loopNext len b) n 0 < len
    · rw [show loopNext len b (Nat.iterate (loopNext len b) n 0)
          = Nat.iterate (loopNext len b) n 0 + b from by
        simp only [loopNext]
        rw [if_pos h]]
      omega
    · rw [show loopNext len b (Nat.iterate (loopNext len b) n 0)
          = Nat.iterate (loopNext len b) n 0 from by
        simp only [loopNext]
        rw [if_neg h]]
      omega

/-- C9: the chunking loop of `insertWithBatch` terminates for every input
whenever `batchSize ≥ 1` (the loop index reaches `len(data)` within
`len(data)` iterations), and the positivity precondition is necessary: for
`batchSize = 0` on a non-empty input the loop index never advances past 0,
so the `i < len(data)` guard never fails and the loop does not terminate. -/
theorem chunk_loop_termination :
    (∀ len b : ℕ, 1 ≤ b → ∃ n, ¬ (Nat.iterate (loopNext len b) n 0 < len)) ∧
    (∀ len : ℕ, 0 < len → ∀ n : ℕ, Nat.iterate (loopNext len 0) n 0 = 0) := by
  constructor
  · intro len b hb
    refine ⟨len, ?_⟩
    have h := iterate_loopNext_lower len b hb len
    have h2 : len * 1 ≤ len * b := Nat.mul_le_mul_left len hb
    rw [Nat.mul_one] at h2
    omega
  · intro len hlen n
    induction n with
    | zero => rfl
    | succ n ih =>
      rw [Function.iterate_succ_apply', ih]
      simp [loopNext, hlen]

/-- Witness for C9 at `len = 10, b = 3` (termination) and `len = 1, b = 0`
(the index stays at 0 forever). -/
theorem chunk_loop_termination_witness :
    (∃ n, ¬ (Nat.iterate (loopNext 10 3) n 0 < 10)) ∧
    (∀ n : ℕ, Nat.iterate (loopNext 1 0) n 0 = 0) :=
  ⟨chunk_loop_termination.1 10 3 (by norm_num),
   chunk_loop_termination.2 1 (by norm_num)⟩

/-! ## Lemmas: Steady-State Sampler -/

lemma prefixList_length (f : ℕ → ℝ) (n : ℕ) : (prefixList f n).length = n := by
  simp [prefixList]

lemma prefixList_succ (f : ℕ → ℝ) (n : ℕ) :
    prefixList f (n + 1) = prefixList f n ++ [f n] := by
  simp [prefixList, List.range_succ]

open Classical in
lemma samplerAux_succ (f : ℕ → ℝ) (fuel : ℕ) (ds : List ℝ) :
    samplerAux f (fuel + 1) ds =
      if minSamples ≤ (ds ++ [f ds.length]).length ∧ cvOf (ds ++ [f ds.length]) ≤ targetCV
      then ([TrialEvent.clearTable, TrialEvent.sampleInsert], ds ++ [f ds.length],
        SampleStatus.converged)
      else (TrialEvent.clearTable :: TrialEvent.sampleInsert ::
          (samplerAux f fuel (ds ++ [f ds.length])).1,
        (samplerAux f fuel (ds ++ [f ds.length])).2) := rfl

open Classical in
lemma samplerAux_step (f : ℕ → ℝ) (fuel n : ℕ) :
    samplerAux f (fuel + 1) (prefixList f n) =
      if stopAt f (n + 1)
      then ([TrialEvent.clearTable, TrialEvent.sampleInsert], prefixList f (n + 1),
        SampleStatus.converged)
      else (TrialEvent.clearTable :: TrialEvent.sampleInsert ::
          (samplerAux f fuel (prefixList f (n + 1))).1,
        (samplerAux f fuel (prefixList f (n + 1))).2) := by
  rw [samplerAux_succ, prefixList_length, ← prefixList_succ, prefixList_length]
  exact if_congr Iff.rfl rfl rfl

lemma samplerAux_conv (f : ℕ → ℝ) :
    ∀ fuel n k, fuel + n = maxSamples → n < k → k ≤ maxSamples → stopAt f k →
      (∀ j, n < j → j < k → ¬ stopAt f j) →
      (samplerAux f fuel (prefixList f n)).2 = (prefixList f k, SampleStatus.converged) := by
  intro fuel
  induction fuel with
  | zero =>
    intro n k hfn hnk hkm _ _
    exfalso
    omega
  | succ fuel ih =>
    intro n k hfn hnk hkm hk hj
    rw [samplerAux_step]
    rcases Nat.lt_or_ge (n + 1) k with h1 | h1
    · have hns : ¬ stopAt f (n + 1) := hj (n + 1) (by omega) h1
      rw [if_neg hns]
      exact ih (n + 1) k (by omega) h1 hkm hk (fun j hj1 hj2 => hj j (by omega) hj2)
    · have hke : k = n + 1 := by omega
      subst hke
      rw [if_pos hk]

lemma samplerAux_maxed (f : ℕ → ℝ) :
    ∀ fuel n, fuel + n = maxSamples →
      (∀ j, n < j → j ≤ maxSamples → ¬ stopAt f j) →
      (samplerAux f fuel (prefixList f n)).2
        = (prefixList f maxSamples, SampleStatus.maxReached) := by
  intro fuel
  induction fuel with
  | zero =>
    intro n hfn _
    have hn : n = maxSamples := by omega
    subst hn
    rfl
  | succ fuel ih =>
    intro n hfn hj
    rw [samplerAux_step]
    have hns : ¬ stopAt f (n + 1) := hj (n + 1) (by omega) (by omega)
    rw [if_neg hns]
    exact ih (n + 1) (by omega) (fun j h1 h2 => hj j (by omega) h2)

lemma samplerAux_length_bounds (f : ℕ → ℝ) :
    ∀ fuel n, fuel + n = maxSamples →
      ((samplerAux f fuel (prefixList f n)).2.2 = SampleStatus.converged →
        minSamples ≤ (samplerAux f fuel (prefixList f n)).2.1.length ∧
        (samplerAux f fuel (prefixList f n)).2.1.length ≤ maxSamples) ∧
      ((samplerAux f fuel (prefixList f n)).2.2 = SampleStatus.maxReached →
        (samplerAux f fuel (prefixList f n)).2.1.length = maxSamples) := by
  intro fuel
  induction fuel with
  | zero =>
    intro n hfn
    constructor
    · intro hc
      simp [samplerAux] at hc
    · intro _
      have hn : n = maxSamples := by omega
      subst hn
      simp [samplerAux, prefixList_length]
  | succ fuel ih =>
    intro n hfn
    rw [samplerAux_step]
    by_cases hs : stopAt f (n + 1)
    · rw [if_pos hs]
      constructor
      · intro _
        have hmin : minSamples ≤ n + 1 := hs.1
        constructor
        · rw [show (([TrialEvent.clearTable, TrialEvent.sampleInsert],
              prefixList f (n + 1), SampleStatus.converged) :
              List TrialEvent × List ℝ × SampleStatus).2.1
              = prefixList f (n + 1) from rfl, prefixList_length]
          exact hmin
        · rw [show (([TrialEvent.clearTable, TrialEvent.sampleInsert],
              prefixList f (n + 1), SampleStatus.converged) :
              List TrialEvent × List ℝ × SampleStatus).2.1
              = prefixList f (n + 1) from rfl, prefixList_length]
          omega
      · intro hmr
        simp at hmr
    · rw [if_neg hs]
      exact ih (n + 1) (by omega)

/-- C1: the Steady-State Sampler stops at exactly the first index `k` with
`minSamples ≤ k ≤ maxSamples` at which `CV ≤ targetCV`, emitting a Converged
result whose statistics are computed over the entire series of `k` samples;
if no such index exists it stops at exactly `maxSamples = 20` samples with a
MaxReached result; the emitted sample count always lies in
`[minSamples, maxSamples]`. -/
theorem sampler_stops_at_first_convergence (f : ℕ → ℝ) :
    (∀ k, stopAt f k → k ≤ maxSamples → (∀ j, j < k → ¬ stopAt f j) →
      (measureSteadyState f).2 = (prefixList f k, SampleStatus.converged) ∧
      (measureResult f).samples = k ∧
      (measureResult f).rowsPerSec = calculateMean (prefixList f k) ∧
      (measureResult f).stdDev
        = calculateStdDev (prefixList f k) (calculateMean (prefixList f k))) ∧
    ((∀ j, j ≤ maxSamples → ¬ stopAt f j) →
      (measureSteadyState f).2 = (prefixList f maxSamples, SampleStatus.maxReached) ∧
      (measureResult f).samples = maxSamples) ∧
    (minSamples ≤ (measureResult f).samples ∧ (measureResult f).samples ≤ maxSamples) ∧
    (minSamples = 5 ∧ maxSamples = 20 ∧ targetCV = 0.05) := by
  have hms : measureSteadyState f = samplerAux f maxSamples (prefixList f 0) := rfl
  have hm5 : minSamples = 5 := rfl
  refine ⟨?_, ?_, ?_, rfl, rfl, rfl⟩
  · intro k hk hkm hj
    have hk0 : 0 < k := by
      have := hk.1
      omega
    have h2 := samplerAux_conv f maxSamples 0 k (by omega) hk0 hkm hk
      (fun j _ hjk => hj j hjk)
    have hfull : (measureSteadyState f).2 = (prefixList f k, SampleStatus.converged) := by
      rw [hms, h2]
    have h21 : (measureSteadyState f).2.1 = prefixList f k := by
      rw [hfull]
    refine ⟨hfull, ?_, ?_, ?_⟩
    · show (measureSteadyState f).2.1.length = k
      rw [h21, prefixList_length]
    · show calculateMean (measureSteadyState f).2.1 = calculateMean (prefixList f k)
      rw [h21]
    · show calculateStdDev (measureSteadyState f).2.1 (calculateMean (measureSteadyState f).2.1)
        = calculateStdDev (prefixList f k) (calculateMean (prefixList f k))
      rw [h21]
  · intro hj
    have h2 := samplerAux_maxed f maxSamples 0 (by omega) (fun j _ hjm => hj j hjm)
    have hfull : (measureSteadyState f).2
        = (prefixList f maxSamples, SampleStatus.maxReached) := by
      rw [hms, h2]
    refine ⟨hfull, ?_⟩
    show (measureSteadyState f).2.1.length = maxSamples
    rw [hfull]
    exact prefixList_length f maxSamples
  · have hb := samplerAux_length_bounds f maxSamples 0 (by omega)
    rw [← hms] at hb
    cases hst : (measureSteadyState f).2.2 with
    | converged =>
      have := hb.1 hst
      exact ⟨this.1, this.2⟩
    | maxReached =>
      have := hb.2 hst
      constructor
      · rw [show (measureResult f).samples = (measureSteadyState f).2.1.length from rfl, this]
        decide
      · rw [show (measureResult f).samples = (measureSteadyState f).2.1.length from rfl, this]

/-- Witness for C1: the constant throughput sequence 100 converges at exactly
`k = minSamples = 5`. -/
theorem sampler_stops_at_first_convergence_witness :
    stopAt (fun _ => (100 : ℝ)) 5 ∧
    (measureSteadyState (fun _ => (100 : ℝ))).2
      = (prefixList (fun _ => (100 : ℝ)) 5, SampleStatus.converged) := by
  have hpl : prefixList (fun _ => (100 : ℝ)) 5 = [100, 100, 100, 100, 100] := by
    unfold prefixList
    rw [show List.range 5 = [0, 1, 2, 3, 4] from rfl]
    rfl
  have hmem : ∀ x ∈ ([100, 100, 100, 100, 100] : List ℝ), x = 100 := by simp
  have hmean : calculateMean [100, 100, 100, 100, 100] = 100 :=
    calculateMean_of_all_eq _ 100 (by simp) hmem
  have hsd : calculateStdDev [100, 100, 100, 100, 100] (100 : ℝ) = 0 :=
    (calculateStdDev_eq_zero_iff _ 100 (by simp)).mpr hmem
  have hcv : cvOf [100, 100, 100, 100, 100] ≤ targetCV := by
    unfold cvOf
    rw [hmean, hsd]
    norm_num [targetCV]
  have hstop : stopAt (fun _ => (100 : ℝ)) 5 := by
    constructor
    · decide
    · rw [hpl]
      exact hcv
  refine ⟨hstop, ?_⟩
  exact ((sampler_stops_at_first_convergence (fun _ => (100 : ℝ))).1 5 hstop
    (by decide)
    (fun j hlt hst => by
      have h5 : minSamples = 5 := rfl
      have := hst.1
      omega)).1

/-! ## Claim C4: table reset placement -/

lemma samplerAux_samples_preceded (f : ℕ → ℝ) :
    ∀ fuel (ds : List ℝ) (prev : Option TrialEvent),
      clearPrecededAux isSampleInsert prev ((samplerAux f fuel ds).1) = true := by
  intro fuel
  induction fuel with
  | zero =>
    intro ds prev
    rfl
  | succ fuel ih =>
    intro ds prev
    rw [samplerAux_succ]
    by_cases hs : minSamples ≤ (ds ++ [f ds.length]).length ∧
        cvOf (ds ++ [f ds.length]) ≤ targetCV
    · rw [if_pos hs]
      rfl
    · rw [if_neg hs]
      simp only [clearPrecededAux, isSampleInsert]
      simp [ih]

/-- C4 counterexample: in the trial trace for any throughput sequence (here
the constant 0), it is false that every row-inserting event is immediately
preceded by a table clear — the first warmup cycle runs with no preceding
clear at all (it can observe rows left by the previous trial's last sample),
and the second warmup cycle is immediately preceded by the first warmup
insert, not by a clear. -/
theorem table_reset_counterexample :
    insertsClearPreceded (trialEvents (fun _ => 0)) = false := by
  unfold insertsClearPreceded trialEvents runWarmupEvents
  simp [clearPrecededAux, isRowInsert]

/-- C4 amended: the table is cleared immediately before every *measured
sample*; the warmup cycles are not preceded by clears — instead `runWarmup`
performs its two insert transactions and then clears the table once, after
the loop. -/
theorem table_reset_amended (f : ℕ → ℝ) :
    samplesClearPreceded (trialEvents f) = true ∧
    runWarmupEvents
      = [TrialEvent.warmupInsert, TrialEvent.warmupInsert, TrialEvent.clearTable] := by
  refine ⟨?_, rfl⟩
  unfold samplesClearPreceded trialEvents runWarmupEvents
  simp only [List.cons_append, List.nil_append, clearPrecededAux, isSampleInsert]
  simp [measureSteadyState, samplerAux_samples_preceded]

/-! ## Claim C5: zero mean is not treated as fatal -/

/-- C5 (code bug): `measureSteadyState` has no `mean == 0` guard. On the
all-zero throughput sequence the mean of the first `minSamples` samples is 0,
`cv` is by definition the unguarded division `stdDev / mean`, and the sampler
still terminates in one of its two ordinary states — its result type has no
fatal/error alternative — contradicting the spec's requirement that a zero
mean be treated as a fatal anomaly rather than silently divided. -/
theorem zero_mean_not_fatal :
    calculateMean (List.replicate minSamples (0 : ℝ)) = 0 ∧
    (∀ xs : List ℝ, cvOf xs = calculateStdDev xs (calculateMean xs) / calculateMean xs) ∧
    ((measureSteadyState (fun _ => 0)).2.2 = SampleStatus.converged ∨
      (measureSteadyState (fun _ => 0)).2.2 = SampleStatus.maxReached) := by
  refine ⟨?_, fun xs => rfl, ?_⟩
  · exact calculateMean_of_all_eq _ 0 (by simp [minSamples]) (by simp)
  · cases h : (measureSteadyState (fun _ => (0 : ℝ))).2.2 with
    | converged => exact Or.inl rfl
    | maxReached => exact Or.inr rfl

/-! ## Claims C8 and C6: warmup controller and executor error handling -/

/-- C8: every successful run of `runWarmup` performs exactly two insert
transactions of `min(batchSize, len(data))` records each, then a single
table clear, and leaves the table with zero rows. (The source `runWarmup`
returns only an error — all timing is discarded; the model carries no timing
at all.) -/
theorem warmup_two_cycles_then_clear {α : Type} (o : DBOracle) (table data : List α)
    (b : ℕ) (hok : (runWarmup o table data b).2.2 = true) :
    (runWarmup o table data b).2.1 = [] ∧
    (runWarmup o table data b).1
      = [TxOp.beginTx 0, TxOp.sendBatch 0 (min b data.length), TxOp.commit 0,
         TxOp.beginTx 1, TxOp.sendBatch 1 (min b data.length), TxOp.commit 1,
         TxOp.clearT] := by
  cases hb0 : o.beginFails 0 <;> cases hba0 : o.batchFails 0 <;>
    cases hc0 : o.commitFails 0 <;> cases hb1 : o.beginFails 1 <;>
    cases hba1 : o.batchFails 1 <;> cases hc1 : o.commitFails 1 <;>
    cases hcl : o.clearFails <;>
    simp_all [runWarmup, warmupCycle]

/-- Witness for C8: all-success oracle, 5 records, batch size 2. -/
theorem warmup_two_cycles_then_clear_witness :
    ((runWarmup oracleOk [7] (List.range 5) 2).2.2 = true) ∧
    ((runWarmup oracleOk [7] (List.range 5) 2).2.1 = [] ∧
      (runWarmup oracleOk [7] (List.range 5) 2).1
        = [TxOp.beginTx 0, TxOp.sendBatch 0 (min 2 (List.range 5).length), TxOp.commit 0,
           TxOp.beginTx 1, TxOp.sendBatch 1 (min 2 (List.range 5).length), TxOp.commit 1,
           TxOp.clearT]) :=
  ⟨by decide, warmup_two_cycles_then_clear oracleOk [7] (List.range 5) 2 (by decide)⟩

lemma execChunks_fail {α : Type} (o : DBOracle) :
    ∀ (cs : List (List α)) (k : ℕ) (table : List α),
      (execChunks o cs k table).2.2 = false →
      ∃ i, i < cs.length ∧
        (execChunks o cs k table).2.1 = table ++ (cs.take i).flatten ∧
        (o.beginFails (k + i) = true ∨ o.batchFails (k + i) = true ∨
          o.commitFails (k + i) = true) ∧
        (∀ op ∈ (execChunks o cs k table).1, opIndex op ≤ k + i) ∧
        (o.beginFails (k + i) = false → o.batchFails (k + i) = true →
          TxOp.rollback (k + i) ∈ (execChunks o cs k table).1) := by
  intro cs
  induction cs with
  | nil =>
    intro k table h
    simp [execChunks] at h
  | cons c rest ih =>
    intro k table h
    cases hb0 : o.beginFails k with
    | true =>
      refine ⟨0, by simp, ?_, ?_, ?_, ?_⟩
      · simp [execChunks, hb0]
      · simp [hb0]
      · intro op hop
        simp [execChunks, hb0] at hop
        simp [hop, opIndex]
      · intro hbf _
        rw [Nat.add_zero] at hbf
        rw [hbf] at hb0
        cases hb0
    | false =>
      cases hb1 : o.batchFails k with
      | true =>
        refine ⟨0, by simp, ?_, ?_, ?_, ?_⟩
        · simp [execChunks, hb0, hb1]
        · simp [hb1]
        · intro op hop
          simp [execChunks, hb0, hb1] at hop
          rcases hop with hop | hop | hop <;> simp [hop, opIndex]
        · intro _ _
          simp [execChunks, hb0, hb1]
      | false =>
        cases hb2 : o.commitFails k with
        | true =>
          refine ⟨0, by simp, ?_, ?_, ?_, ?_⟩
          · simp [execChunks, hb0, hb1, hb2]
          · simp [hb2]
          · intro op hop
            simp [execChunks, hb0, hb1, hb2] at hop
            rcases hop with hop | hop | hop <;> simp [hop, opIndex]
          · intro _ hbf
            rw [Nat.add_zero] at hbf
            rw [hbf] at hb1
            cases hb1
        | false =>
          have hrw : execChunks o (c :: rest) k table
              = (TxOp.beginTx k :: TxOp.sendBatch k c.length :: TxOp.commit k ::
                  (execChunks o rest (k + 1) (table ++ c)).1,
                 (execChunks o rest (k + 1) (table ++ c)).2) := by
            simp [execChunks, hb0, hb1, hb2]
          rw [hrw] at h ⊢
          obtain ⟨i, hilen, htab, hflag, hops, hrb⟩ := ih (k + 1) (table ++ c) h
          refine ⟨i + 1, by simpa using Nat.succ_lt_succ hilen, ?_, ?_, ?_, ?_⟩
          · show (execChunks o rest (k + 1) (table ++ c)).2.1
              = table ++ ((c :: rest).take (i + 1)).flatten
            rw [htab, List.take_succ_cons, List.flatten_cons, List.append_assoc]
          · rw [show k + (i + 1) = k + 1 + i from by omega]
            exact hflag
          · intro op hop
            rcases List.mem_cons.mp hop with hop | hop
            · subst hop
              simp only [opIndex]
              omega
            rcases List.mem_cons.mp hop with hop | hop
            · subst hop
              simp only [opIndex]
              omega
            rcases List.mem_cons.mp hop with hop | hop
            · subst hop
              simp only [opIndex]
              omega
            · have := hops op hop
              omega
          · intro hbf hba
            rw [show k + (i + 1) = k + 1 + i from by omega] at hbf hba ⊢
            have := hrb hbf hba
            simp [this]

/-- C6: whenever a transaction-begin, batch-send, or commit operation fails
during the executor's run, the executor stops at that chunk — every operation
in its trace belongs to a transaction no later than the failing one — and the
table contains exactly the rows of the fully committed preceding chunks (no
partial rows from the failed transaction survive: a batch-send failure is
explicitly rolled back, and a failed commit aborts its transaction). -/
theorem executor_error_stops_and_rolls_back {α : Type} (o : DBOracle) (data : List α)
    (b : ℕ) (table : List α)
    (hfail : (insertWithBatch o data b table).2.2 = false) :
    ∃ i, i < (chunks b data).length ∧
      (insertWithBatch o data b table).2.1 = table ++ ((chunks b data).take i).flatten ∧
      (o.beginFails i = true ∨ o.batchFails i = true ∨ o.commitFails i = true) ∧
      (∀ op ∈ (insertWithBatch o data b table).1, opIndex op ≤ i) ∧
      (o.beginFails i = false → o.batchFails i = true →
        TxOp.rollback i ∈ (insertWithBatch o data b table).1) := by
  unfold insertWithBatch at hfail ⊢
  obtain ⟨i, hilen, htab, hflag, hops, hrb⟩ :=
    execChunks_fail o (chunks b data) 0 table hfail
  rw [Nat.zero_add] at hflag hrb
  refine ⟨i, hilen, htab, hflag, ?_, hrb⟩
  intro op hop
  have := hops op hop
  omega

/-- Witness for C6: 5 records at batch size 2; the second transaction's batch
send fails. -/
theorem executor_error_stops_and_rolls_back_witness :
    ((insertWithBatch oracleBatchFail1 (List.range 5) 2 []).2.2 = false) ∧
    (∃ i, i < (chunks 2 (List.range 5)).length ∧
      (insertWithBatch oracleBatchFail1 (List.range 5) 2 []).2.1
        = [] ++ ((chunks 2 (List.range 5)).take i).flatten ∧
      (oracleBatchFail1.beginFails i = true ∨ oracleBatchFail1.batchFails i = true ∨
        oracleBatchFail1.commitFails i = true) ∧
      (∀ op ∈ (insertWithBatch oracleBatchFail1 (List.range 5) 2 []).1, opIndex op ≤ i) ∧
      (oracleBatchFail1.beginFails i = false → oracleBatchFail1.batchFails i = true →
        TxOp.rollback i ∈ (insertWithBatch oracleBatchFail1 (List.range 5) 2 []).1)) :=
  ⟨by decide, executor_error_stops_and_rolls_back oracleBatchFail1 (List.range 5) 2 []
    (by decide)⟩

end PScale
